import Mathlib

/-!
# FSVA seed-and-vote matcher: shallow embedding and verification

This file embeds the matching pipeline of `src/FSVA/fsva.py` in Lean 4 and
proves properties of it.  Sequences (reads, references, per-symbol codes) are
`List Char`, mirroring Python strings; Python lists of encoded symbols are
`List (List Char)`; the `defaultdict(int)` vote tally is an insertion-ordered
association list, mirroring Python dict semantics; Python `range` over a
possibly negative bound is `pyRange` on `Int`.
-/

/-- Python `range(n)` where `n` may be negative (then empty). -/
def pyRange (n : Int) : List Nat :=
  List.range n.toNat

/-- The `base_encoding` dict: each base maps to a 4-character masked code. -/
def base_encoding : Char → Option (List Char)
  | 'A' => some ['0', '*', '0', '1']
  | 'C' => some ['1', '1', '*', '0']
  | 'T' => some ['1', '0', '*', '0']
  | 'G' => some ['0', '*', '1', '1']
  | 'N' => some ['*', '*', '*', '*']
  | _ => none

/-- The placeholder code appended for a base missing from `base_encoding`. -/
def placeholder_code : List Char :=
  ['?', '?', '?', '?']

/-- Source `encode_sequence`: each base's dict code, or the `"????"` placeholder. -/
def encode_sequence (sequence : List Char) : List (List Char) :=
  sequence.map fun base =>
    match base_encoding base with
    | some code => code
    | none => placeholder_code

/-- Source `generate_encoded_seeds`: encode `read[i : i+seed_length]` for each `i` in
Python `range(len(read) - seed_length + 1)`. -/
def generate_encoded_seeds (read : List Char) (seed_length : Nat) :
    List (List (List Char)) :=
  (pyRange ((read.length : Int) - seed_length + 1)).map fun i =>
    encode_sequence ((read.drop i).take seed_length)

/-- Source `match_with_wildcard`: codes match unless some zipped position has both
sides concrete and different. -/
def match_with_wildcard (encoded_base encoded_reference : List Char) : Bool :=
  (List.zip encoded_base encoded_reference).all fun p =>
    p.1 == '*' || p.2 == '*' || p.1 == p.2

/-- The inner loop of `tcam_lookup_with_encoding`: count mismatching positions,
breaking as soon as the running count exceeds `max_hamming_distance` (the
Python `break`). -/
def count_mismatches_capped (pairs : List (List Char × List Char))
    (mismatches : Nat) (max_hamming_distance : Nat) : Nat :=
  match pairs with
  | [] => mismatches
  | p :: rest =>
    if match_with_wildcard p.1 p.2 then
      count_mismatches_capped rest mismatches max_hamming_distance
    else if max_hamming_distance < mismatches + 1 then
      mismatches + 1
    else
      count_mismatches_capped rest (mismatches + 1) max_hamming_distance

/-- Source `tcam_lookup_with_encoding`: report each window offset whose (capped)
mismatch count stays within `max_hamming_distance`. -/
def tcam_lookup_with_encoding (encoded_seed encoded_reference : List (List Char))
    (max_hamming_distance : Nat) : List Nat :=
  (pyRange ((encoded_reference.length : Int) - encoded_seed.length + 1)).filter
    fun i =>
      decide (count_mismatches_capped
        (List.zip encoded_seed
          ((encoded_reference.drop i).take encoded_seed.length))
        0 max_hamming_distance ≤ max_hamming_distance)

/-- One `vote_counts[locality_start] += 1` step on the insertion-ordered tally
(Python `defaultdict(int)` has dict insertion order: a fresh key appends). -/
def voting_bump (vote_counts : List (Nat × Nat)) (locality_start : Nat) :
    List (Nat × Nat) :=
  match vote_counts with
  | [] => [(locality_start, 1)]
  | (k, v) :: rest =>
    if k = locality_start then (k, v + 1) :: rest
    else (k, v) :: voting_bump rest locality_start

/-- Source `voting`: tally each match into bucket `(match / locality_size) * locality_size`.
(The source's `matches` parameter is `match_list` here; `matches` is reserved.) -/
def voting (match_list : List Nat) (locality_size : Nat) : List (Nat × Nat) :=
  match_list.foldl
    (fun vote_counts m => voting_bump vote_counts (m / locality_size * locality_size))
    []

/-- Source `filtering`: keep bucket starts whose count reaches `vote_threshold`,
in tally order. -/
def filtering (vote_counts : List (Nat × Nat)) (vote_threshold : Int) : List Nat :=
  (vote_counts.filter fun p => decide (vote_threshold ≤ (p.2 : Int))).map
    fun p => p.1

/-- One Smith-Waterman DP row extension: given row `i` (`prev`), produce the
entries of row `i+1` left to right.  `dp[i+1][j+1]` is
`max(0, dp[i][j] + score, dp[i][j+1] - 1, dp[i+1][j] - 1)` with score `+2` on
a character match of `query[i]` with `reference[j]`, else `-1`. -/
def sw_next (query reference : List Char) (i : Nat) (prev : Nat → Int) :
    Nat → Int
  | 0 => 0
  | j + 1 =>
    max 0 (max
      (prev j + (if query.getD i 'A' = reference.getD j 'A' then (2 : Int) else -1))
      (max (prev (j + 1) - 1) (sw_next query reference i prev j - 1)))

/-- Row `i` of the Smith-Waterman matrix `dp` of `smith_waterman`, as a
function of the column index. -/
def sw_row (query reference : List Char) : Nat → Nat → Int
  | 0 => fun _ => 0
  | i + 1 => sw_next query reference i (sw_row query reference i)

/-- Source `smith_waterman`: maximum DP cell over `i` in `1..m`, `j` in `1..n`,
starting from `max_score = 0`. -/
def smith_waterman (query reference : List Char) : Int :=
  (List.range query.length).foldl
    (fun acc i =>
      (List.range reference.length).foldl
        (fun acc2 j => max acc2 (sw_row query reference (i + 1) (j + 1)))
        acc)
    0

/-- The merged match list of `fsva_with_encoding`: the `all_matches.extend`
loop over the encoded seeds. -/
def fsva_all_matches (read reference : List Char)
    (seed_length max_hamming_distance : Nat) : List Nat :=
  (generate_encoded_seeds read seed_length).foldl
    (fun all_matches encoded_seed =>
      all_matches ++
        tcam_lookup_with_encoding encoded_seed (encode_sequence reference)
          max_hamming_distance)
    []

/-- Source `fsva_with_encoding`: encode, seed, TCAM lookup, vote, filter; returns the
candidate bucket starts (a list of ints — the source attaches no scores). -/
def fsva_with_encoding (read reference : List Char)
    (seed_length max_hamming_distance locality_size : Nat)
    (vote_threshold : Int) : List Nat :=
  filtering
    (voting (fsva_all_matches read reference seed_length max_hamming_distance)
      locality_size)
    vote_threshold

/-! ## Basic facts about the codec -/

/-- The canonical bases. -/
def canonical_bases : List Char :=
  ['A', 'C', 'G', 'T']

/-- The code a single base encodes to: its dict entry, or the placeholder. -/
def encoded_base_of (c : Char) : List Char :=
  (base_encoding c).getD placeholder_code

theorem encode_sequence_cons (c : Char) (s : List Char) :
    encode_sequence (c :: s) = encoded_base_of c :: encode_sequence s := by
  cases hbc : base_encoding c <;> simp [encode_sequence, encoded_base_of, hbc]

theorem encode_sequence_nil : encode_sequence [] = [] := rfl

theorem encode_sequence_length (s : List Char) :
    (encode_sequence s).length = s.length := by
  simp [encode_sequence]

/-- Spec-side definition for the refinement claim: a plain mismatch count
under symbol equality ("plain symbol-equality Hamming matching"). -/
def plain_mismatch_count (s t : List Char) : Nat :=
  (List.zip s t).countP fun p => !(p.1 == p.2)

/-- The mismatch count the masked matcher induces on two encoded sequences. -/
def encoded_mismatch_count (s t : List Char) : Nat :=
  (List.zip (encode_sequence s) (encode_sequence t)).countP
    fun p => !match_with_wildcard p.1 p.2

/-! ## C2: handling of symbols outside the alphabet -/

/-- C2, counterexample: the symbol `X` lies outside the known alphabet, yet
`encode_sequence` maps it to the placeholder `"????"`, which is not the
all-wildcard code `"****"`, and which fails the masked-equality test against
the code of the canonical base `A` — so an unrecognized symbol does not match
everything. -/
theorem c2_counterexample :
    encode_sequence ['X'] = [placeholder_code] ∧
    placeholder_code ≠ ['*', '*', '*', '*'] ∧
    match_with_wildcard placeholder_code ((base_encoding 'A').getD []) = false := by
  decide

/-- C2, amended: a symbol outside the known alphabet encodes to the placeholder
code `"????"` (not the all-wildcard code), and no error is raised; the
placeholder passes the masked-equality test against the all-wildcard code of
`N` and against itself, but fails it against the code of every canonical
base. -/
theorem c2_unknown_placeholder (c : Char) (h : base_encoding c = none) :
    encode_sequence [c] = [placeholder_code] ∧
    match_with_wildcard placeholder_code ((base_encoding 'N').getD []) = true ∧
    match_with_wildcard placeholder_code placeholder_code = true ∧
    ∀ b ∈ canonical_bases,
      match_with_wildcard placeholder_code ((base_encoding b).getD []) = false := by
  refine ⟨?_, by decide, by decide, by decide⟩
  simp [encode_sequence, h]

/-- C2, witness: instantiates `c2_unknown_placeholder` at the concrete
out-of-alphabet symbol `X`. -/
theorem c2_unknown_placeholder_witness :
    base_encoding 'X' = none ∧ encode_sequence ['X'] = [placeholder_code] :=
  ⟨by decide, (c2_unknown_placeholder 'X' (by decide)).1⟩

/-! ## C6: the end-to-end example -/

/-- C6, counterexample: on the documented example
(`read="ACGTACGT"`, `reference="ACGTACGTACGTACGT"`, `seed_length=4`,
`max_hamming_distance=1`, `locality_size=4`, `vote_threshold=2`) the pipeline
also reports candidate `12`, so the candidate set is not `{0, 4, 8}`. -/
theorem c6_counterexample :
    12 ∈ fsva_with_encoding
        "ACGTACGT".toList "ACGTACGTACGTACGT".toList 4 1 4 2 ∧
    12 ∉ ([0, 4, 8] : List Nat) := by
  decide

/-- C6, amended: on the documented example the pipeline produces exactly the
candidate offsets `{0, 4, 8, 12}` (in first-vote order): the two exact
occurrences of the seed `"ACGT"` at reference offset `12` give bucket `12`
two votes, meeting the threshold. -/
theorem c6_actual_candidates :
    fsva_with_encoding "ACGTACGT".toList "ACGTACGTACGTACGT".toList 4 1 4 2 =
      [0, 4, 8, 12] := by
  decide

/-! ## C3: configuration validation -/

/-- C3, counterexample: with the invalid configuration `vote_threshold = 0`
(non-positive) the pipeline does not fail fast; it scans the sequences and
returns the non-empty result `[0]`. -/
theorem c3_counterexample :
    fsva_with_encoding ['A'] ['A'] 1 0 1 0 = [0] := by
  decide

/-- C3, amended: the pipeline performs no configuration validation at entry.
An invalid configuration flows through the scan; in particular, for any
non-positive `vote_threshold` the filter passes every voted bucket, so the
pipeline returns all bucket starts of the vote tally rather than a failure. -/
theorem c3_no_validation (read reference : List Char)
    (seed_length max_hamming_distance locality_size : Nat)
    (vote_threshold : Int) (_hls : 0 < locality_size)
    (hvt : vote_threshold ≤ 0) :
    fsva_with_encoding read reference seed_length max_hamming_distance
        locality_size vote_threshold =
      (voting (fsva_all_matches read reference seed_length max_hamming_distance)
          locality_size).map (fun p => p.1) := by
  unfold fsva_with_encoding filtering
  rw [List.filter_eq_self.mpr]
  intro p _
  exact decide_eq_true (le_trans hvt (Int.natCast_nonneg p.2))

/-- C3, witness: instantiates `c3_no_validation` at a concrete invalid
configuration (`vote_threshold = 0`). -/
theorem c3_no_validation_witness :
    0 < 1 ∧ (0 : Int) ≤ 0 ∧
      fsva_with_encoding ['A'] ['A'] 1 0 1 0 =
        (voting (fsva_all_matches ['A'] ['A'] 1 0) 1).map (fun p => p.1) :=
  ⟨by decide, by decide,
    c3_no_validation ['A'] ['A'] 1 0 1 0 (by decide) (by decide)⟩

/-! ## C9: on canonical bases the masked matcher is plain equality -/

/-- C9: for canonical bases the masked matcher agrees with plain symbol
equality: two canonical base codes pass `match_with_wildcard` iff the bases
are equal; consequently on sequences of canonical bases the encoded mismatch
count is exactly the plain Hamming mismatch count. -/
theorem c9_canonical_equiv :
    (∀ a ∈ canonical_bases, ∀ b ∈ canonical_bases,
      (match_with_wildcard ((base_encoding a).getD placeholder_code)
          ((base_encoding b).getD placeholder_code) = true ↔ a = b)) ∧
    ∀ s t : List Char, (∀ c ∈ s, c ∈ canonical_bases) →
      (∀ c ∈ t, c ∈ canonical_bases) →
      encoded_mismatch_count s t = plain_mismatch_count s t := by
  constructor
  · decide
  · intro s
    induction s with
    | nil =>
      intro t _ _
      cases t <;> rfl
    | cons c s ih =>
      intro t hs ht
      cases t with
      | nil => rfl
      | cons d t =>
        have hc : c ∈ canonical_bases := hs c (List.mem_cons_self _ _)
        have hd : d ∈ canonical_bases := ht d (List.mem_cons_self _ _)
        have hstep :
            (!match_with_wildcard (encoded_base_of c) (encoded_base_of d)) =
              !(c == d) := by
          fin_cases hc <;> fin_cases hd <;> decide
        have hrest := ih t (fun x hx => hs x (List.mem_cons_of_mem _ hx))
          (fun x hx => ht x (List.mem_cons_of_mem _ hx))
        simp only [encoded_mismatch_count, plain_mismatch_count,
          encode_sequence_cons, List.zip_cons_cons, List.countP_cons] at *
        rw [hrest, hstep]

/-- C9, witness: instantiates `c9_canonical_equiv` at concrete canonical
bases and sequences. -/
theorem c9_canonical_equiv_witness :
    ('A' ∈ canonical_bases ∧ 'C' ∈ canonical_bases) ∧
    (match_with_wildcard ((base_encoding 'A').getD placeholder_code)
        ((base_encoding 'C').getD placeholder_code) = true ↔ 'A' = 'C') ∧
    encoded_mismatch_count ['A', 'T'] ['A', 'C'] =
      plain_mismatch_count ['A', 'T'] ['A', 'C'] :=
  ⟨⟨by decide, by decide⟩,
    c9_canonical_equiv.1 'A' (by decide) 'C' (by decide),
    c9_canonical_equiv.2 ['A', 'T'] ['A', 'C'] (by decide) (by decide)⟩

/-! ## C4: TCAM lookup reports exactly the windows within the budget -/

/-- The capped counter stays within the budget iff the running count plus the
full mismatch count of the remaining pairs does: the `break` never changes
the final verdict. -/
theorem count_mismatches_capped_le_iff (max_hamming_distance : Nat) :
    ∀ (pairs : List (List Char × List Char)) (mismatches : Nat),
      mismatches ≤ max_hamming_distance →
      (count_mismatches_capped pairs mismatches max_hamming_distance ≤
          max_hamming_distance ↔
        mismatches + pairs.countP (fun p => !match_with_wildcard p.1 p.2) ≤
          max_hamming_distance) := by
  intro pairs
  induction pairs with
  | nil => intro acc _; simp [count_mismatches_capped]
  | cons p rest ih =>
    intro acc hacc
    by_cases hm : match_with_wildcard p.1 p.2
    · simp [count_mismatches_capped, hm, ih acc hacc, List.countP_cons]
    · by_cases hbreak : max_hamming_distance < acc + 1
      · simp [count_mismatches_capped, hm, hbreak, List.countP_cons]
        omega
      · simp [count_mismatches_capped, hm, hbreak, List.countP_cons,
          ih (acc + 1) (by omega)]
        omega

/-- Membership characterization of the TCAM lookup (helper shared by several
results). -/
theorem tcam_mem_iff (encoded_seed encoded_reference : List (List Char))
    (max_hamming_distance : Nat) (i : Nat) :
    i ∈ tcam_lookup_with_encoding encoded_seed encoded_reference
        max_hamming_distance ↔
      ((i : Int) ≤ (encoded_reference.length : Int) - encoded_seed.length ∧
        (List.zip encoded_seed
            ((encoded_reference.drop i).take encoded_seed.length)).countP
          (fun p => !match_with_wildcard p.1 p.2) ≤ max_hamming_distance) := by
  unfold tcam_lookup_with_encoding pyRange
  rw [List.mem_filter, decide_eq_true_eq, List.mem_range,
    count_mismatches_capped_le_iff max_hamming_distance _ 0 (Nat.zero_le _)]
  constructor
  · rintro ⟨hr, hc⟩
    exact ⟨by omega, by omega⟩
  · rintro ⟨hr, hc⟩
    exact ⟨by omega, by omega⟩

/-- C4: for every encoded seed, encoded reference and budget, window offset `i`
(with `0 ≤ i ≤ |reference| − |seed|`) is reported iff the total masked
mismatch count of the seed against the window at `i` is within
`max_hamming_distance` (the budget is a `Nat`, so `max_hamming_distance ≥ 0`);
the early-termination short-circuit does not change the reported set. -/
theorem c4_tcam_membership (encoded_seed encoded_reference : List (List Char))
    (max_hamming_distance : Nat) (i : Nat) :
    i ∈ tcam_lookup_with_encoding encoded_seed encoded_reference
        max_hamming_distance ↔
      ((i : Int) ≤ (encoded_reference.length : Int) - encoded_seed.length ∧
        (List.zip encoded_seed
            ((encoded_reference.drop i).take encoded_seed.length)).countP
          (fun p => !match_with_wildcard p.1 p.2) ≤ max_hamming_distance) :=
  tcam_mem_iff encoded_seed encoded_reference max_hamming_distance i

/-! ## C5: Smith-Waterman bounds -/

theorem sw_row_succ_succ (query reference : List Char) (i j : Nat) :
    sw_row query reference (i + 1) (j + 1) =
      max 0 (max
        (sw_row query reference i j +
          (if query.getD i 'A' = reference.getD j 'A' then (2 : Int) else -1))
        (max (sw_row query reference i (j + 1) - 1)
          (sw_row query reference (i + 1) j - 1))) :=
  rfl

theorem sw_row_succ_zero (query reference : List Char) (i : Nat) :
    sw_row query reference (i + 1) 0 = 0 :=
  rfl

/-- Every DP cell in row `i` is at most `2 * i`: each diagonal step gains at
most the match bonus `2`, and gap steps lose. -/
theorem sw_row_le_row (query reference : List Char) :
    ∀ i j, sw_row query reference i j ≤ 2 * (i : Int) := by
  intro i
  induction i with
  | zero =>
    intro j
    simp [sw_row]
  | succ i ih =>
    intro j
    induction j with
    | zero =>
      rw [sw_row_succ_zero]
      positivity
    | succ j ihj =>
      rw [sw_row_succ_succ]
      have hd := ih j
      have hu := ih (j + 1)
      have hs : (if query.getD i 'A' = reference.getD j 'A' then (2 : Int) else -1) ≤ 2 := by
        split <;> norm_num
      push_cast at ihj ⊢
      apply max_le (by linarith)
      apply max_le (by linarith)
      exact max_le (by linarith) (by linarith)

/-- On the diagonal of a self-alignment every cell is exactly `2 * i`. -/
theorem sw_row_self_diag (s : List Char) :
    ∀ i, sw_row s s i i = 2 * (i : Int) := by
  intro i
  induction i with
  | zero => simp [sw_row]
  | succ i ih =>
    rw [sw_row_succ_succ, ih, if_pos rfl]
    have h1 : sw_row s s i (i + 1) ≤ 2 * (i : Int) := sw_row_le_row s s i (i + 1)
    have h2 : sw_row s s (i + 1) i ≤ 2 * ((i : Int) + 1) := by
      have := sw_row_le_row s s (i + 1) i
      push_cast at this
      linarith
    have hBC : max (sw_row s s i (i + 1) - 1) (sw_row s s (i + 1) i - 1) ≤
        2 * (i : Int) + 2 :=
      max_le (by linarith) (by linarith)
    rw [max_eq_left hBC, max_eq_right (by positivity : (0 : Int) ≤ 2 * (i : Int) + 2)]
    push_cast
    ring

/-- The accumulator of a fold only grows when every step is inflationary. -/
theorem foldl_ge_init (f : Int → Nat → Int) (hf : ∀ a x, a ≤ f a x) :
    ∀ (l : List Nat) (a : Int), a ≤ l.foldl f a := by
  intro l
  induction l with
  | nil => intro a; exact le_refl a
  | cons x l ih => intro a; exact le_trans (hf a x) (ih (f a x))

/-- A fold stays below a bound preserved by every step taken in the list. -/
theorem foldl_le_bound (f : Int → Nat → Int) (B : Int) :
    ∀ (l : List Nat) (a : Int), (∀ x ∈ l, ∀ a2, a2 ≤ B → f a2 x ≤ B) →
      a ≤ B → l.foldl f a ≤ B := by
  intro l
  induction l with
  | nil => intro a _ ha; exact ha
  | cons x l ih =>
    intro a hstep ha
    exact ih (f a x) (fun y hy => hstep y (List.mem_cons_of_mem _ hy))
      (hstep x (List.mem_cons_self _ _) a ha)

/-- A fold with inflationary steps reaches any target some listed step
guarantees. -/
theorem foldl_reaches (f : Int → Nat → Int) (t : Int)
    (hgrow : ∀ a x, a ≤ f a x) (x : Nat) (hx : ∀ a, t ≤ f a x) :
    ∀ (l : List Nat) (a : Int), x ∈ l → t ≤ l.foldl f a := by
  intro l
  induction l with
  | nil => intro a h; cases h
  | cons y l ih =>
    intro a hmem
    rcases List.mem_cons.mp hmem with h | h
    · subst h
      exact le_trans (hx a) (foldl_ge_init f hgrow l (f a x))
    · exact ih (f a y) h

/-- C5: `smith_waterman` is non-negative on all inputs, and a self-alignment
of a canonical-alphabet sequence scores exactly `2 · |s|` (match bonus `+2`,
mismatch `−1`, gap `−1`, zero floor, maximum taken over the DP matrix). -/
theorem c5_sw_bounds :
    (∀ query reference : List Char, 0 ≤ smith_waterman query reference) ∧
    ∀ s : List Char, (∀ c ∈ s, c ∈ canonical_bases) →
      smith_waterman s s = 2 * (s.length : Int) := by
  have hgrow : ∀ (query reference : List Char) (a : Int) (i : Nat),
      a ≤ (List.range reference.length).foldl
        (fun acc2 j => max acc2 (sw_row query reference (i + 1) (j + 1))) a :=
    fun query reference a i =>
      foldl_ge_init _ (fun a2 j => le_max_left a2 _) _ a
  constructor
  · intro query reference
    exact foldl_ge_init _ (fun a i => hgrow query reference a i) _ 0
  · intro s _
    apply le_antisymm
    · apply foldl_le_bound _ _ _ _ _ (by positivity)
      intro i hi a2 ha2
      apply foldl_le_bound _ _ _ _ _ ha2
      intro j _ a3 ha3
      apply max_le ha3
      have hcell := sw_row_le_row s s (i + 1) (j + 1)
      have hik : i < s.length := List.mem_range.mp hi
      push_cast at hcell ⊢
      linarith
    · rcases Nat.eq_zero_or_pos s.length with hz | hpos
      · simp [smith_waterman, hz]
      · have hk : s.length - 1 < s.length := Nat.sub_lt hpos Nat.one_pos
        have hsucc : s.length - 1 + 1 = s.length := Nat.succ_pred_eq_of_pos hpos
        unfold smith_waterman
        apply foldl_reaches _ _ (fun a i => hgrow s s a i) (s.length - 1) _ _ _
          (List.mem_range.mpr hk)
        intro a
        apply foldl_reaches _ _ (fun a2 j => le_max_left a2 _) (s.length - 1) _ _ _
          (List.mem_range.mpr hk)
        intro a2
        refine le_trans (le_of_eq ?_) (le_max_right a2 _)
        rw [sw_row_self_diag s (s.length - 1 + 1), hsucc]

/-- C5, witness: instantiates `c5_sw_bounds` at concrete sequences. -/
theorem c5_sw_bounds_witness :
    (0 ≤ smith_waterman ['A', 'C'] ['G', 'T']) ∧
    smith_waterman ['A', 'C', 'G', 'T'] ['A', 'C', 'G', 'T'] =
      2 * ((['A', 'C', 'G', 'T'] : List Char).length : Int) :=
  ⟨c5_sw_bounds.1 ['A', 'C'] ['G', 'T'],
    c5_sw_bounds.2 ['A', 'C', 'G', 'T'] (by decide)⟩

/-! ## Vote-tally helper lemmas -/

theorem lookup_cons_self (k v : Nat) (rest : List (Nat × Nat)) :
    List.lookup k ((k, v) :: rest) = some v := by
  simp [List.lookup]

theorem lookup_cons_ne (b k v : Nat) (rest : List (Nat × Nat)) (h : b ≠ k) :
    List.lookup b ((k, v) :: rest) = List.lookup b rest := by
  simp [List.lookup, beq_eq_false_iff_ne.mpr h]

/-- The keys of a bumped tally: unchanged if the bucket is present, else the
bucket is appended. -/
theorem voting_bump_fst (locality_start : Nat) :
    ∀ vote_counts : List (Nat × Nat),
      (voting_bump vote_counts locality_start).map (fun p => p.1) =
        if locality_start ∈ vote_counts.map (fun p => p.1) then
          vote_counts.map (fun p => p.1)
        else vote_counts.map (fun p => p.1) ++ [locality_start] := by
  intro vote_counts
  induction vote_counts with
  | nil => simp [voting_bump]
  | cons q rest ih =>
    obtain ⟨k, v⟩ := q
    by_cases hk : k = locality_start
    · subst hk
      simp [voting_bump]
    · simp only [voting_bump, if_neg hk, List.map_cons, List.mem_cons, ih]
      by_cases hmem : locality_start ∈ rest.map (fun p => p.1) <;>
        simp [hmem, Ne.symm hk]

theorem voting_bump_lookup (locality_start b : Nat) :
    ∀ vote_counts : List (Nat × Nat),
      (voting_bump vote_counts locality_start).lookup b =
        if b = locality_start then
          some ((vote_counts.lookup b).getD 0 + 1)
        else vote_counts.lookup b := by
  intro vote_counts
  induction vote_counts with
  | nil =>
    by_cases h : b = locality_start
    · subst h
      simp [voting_bump, lookup_cons_self]
    · rw [show voting_bump [] locality_start = [(locality_start, 1)] from rfl,
        lookup_cons_ne b locality_start 1 [] h, if_neg h]
  | cons q rest ih =>
    obtain ⟨k, v⟩ := q
    by_cases hk : k = locality_start
    · subst hk
      by_cases hb : b = k
      · subst hb
        simp [voting_bump, lookup_cons_self]
      · simp [voting_bump, if_neg hb, lookup_cons_ne b k _ _ hb]
    · have hbump :
          voting_bump ((k, v) :: rest) locality_start =
            (k, v) :: voting_bump rest locality_start := by
        simp [voting_bump, hk]
      by_cases hb : b = k
      · subst hb
        rw [hbump, lookup_cons_self, if_neg hk, lookup_cons_self]
      · rw [hbump, lookup_cons_ne b k v _ hb, ih, lookup_cons_ne b k v rest hb]

theorem voting_bump_sum (locality_start : Nat) :
    ∀ vote_counts : List (Nat × Nat),
      ((voting_bump vote_counts locality_start).map (fun p => p.2)).sum =
        (vote_counts.map (fun p => p.2)).sum + 1 := by
  intro vote_counts
  induction vote_counts with
  | nil => simp [voting_bump]
  | cons q rest ih =>
    obtain ⟨k, v⟩ := q
    by_cases hk : k = locality_start
    · subst hk
      simp [voting_bump]
      omega
    · simp [voting_bump, hk, ih]
      omega

theorem voting_bump_pos (locality_start : Nat) :
    ∀ vote_counts : List (Nat × Nat),
      (∀ p ∈ vote_counts, 0 < p.2) →
      ∀ p ∈ voting_bump vote_counts locality_start, 0 < p.2 := by
  intro vote_counts
  induction vote_counts with
  | nil =>
    intro _ p hp
    rw [show voting_bump [] locality_start = [(locality_start, 1)] from rfl] at hp
    rcases List.mem_singleton.mp hp with rfl
    exact Nat.one_pos
  | cons q rest ih =>
    obtain ⟨k, v⟩ := q
    intro hpos p hp
    by_cases hk : k = locality_start
    · subst hk
      rw [show voting_bump ((k, v) :: rest) k = (k, v + 1) :: rest from by
        simp [voting_bump]] at hp
      rcases List.mem_cons.mp hp with rfl | hp
      · simp
      · exact hpos p (List.mem_cons_of_mem _ hp)
    · rw [show voting_bump ((k, v) :: rest) locality_start =
          (k, v) :: voting_bump rest locality_start from by
        simp [voting_bump, hk]] at hp
      rcases List.mem_cons.mp hp with rfl | hp
      · exact hpos (k, v) (List.mem_cons_self _ _)
      · exact ih (fun r hr => hpos r (List.mem_cons_of_mem _ hr)) p hp

theorem voting_bump_nodup (locality_start : Nat)
    (vote_counts : List (Nat × Nat))
    (hnd : (vote_counts.map (fun p => p.1)).Nodup) :
    ((voting_bump vote_counts locality_start).map (fun p => p.1)).Nodup := by
  rw [voting_bump_fst]
  by_cases hmem : locality_start ∈ vote_counts.map (fun p => p.1)
  · simp [hmem, hnd]
  · simp [hmem, List.nodup_append, hnd]

/-- The vote tally's lookup, defaulted to zero, counts the matches that fall
in the bucket (stated over an arbitrary starting tally for the fold). -/
theorem voting_foldl_lookup (locality_size : Nat) :
    ∀ (ms : List Nat) (vm : List (Nat × Nat)) (b : Nat),
      ((ms.foldl
          (fun acc m => voting_bump acc (m / locality_size * locality_size))
          vm).lookup b).getD 0 =
        (vm.lookup b).getD 0 +
          ms.countP (fun m => decide (m / locality_size * locality_size = b)) := by
  intro ms
  induction ms with
  | nil => intro vm b; simp
  | cons m ms ih =>
    intro vm b
    rw [List.foldl_cons, ih, voting_bump_lookup, List.countP_cons]
    by_cases hb : b = m / locality_size * locality_size
    · rw [if_pos hb]
      simp [hb]
      omega
    · rw [if_neg hb]
      have hd : (decide (m / locality_size * locality_size = b)) = false :=
        decide_eq_false (fun h => hb h.symm)
      simp [hd]

theorem voting_foldl_sum (locality_size : Nat) :
    ∀ (ms : List Nat) (vm : List (Nat × Nat)),
      ((ms.foldl
          (fun acc m => voting_bump acc (m / locality_size * locality_size))
          vm).map (fun p => p.2)).sum =
        (vm.map (fun p => p.2)).sum + ms.length := by
  intro ms
  induction ms with
  | nil => intro vm; simp
  | cons m ms ih =>
    intro vm
    rw [List.foldl_cons, ih, voting_bump_sum]
    simp
    omega

theorem voting_foldl_pos (locality_size : Nat) :
    ∀ (ms : List Nat) (vm : List (Nat × Nat)),
      (∀ p ∈ vm, 0 < p.2) →
      ∀ p ∈ ms.foldl
          (fun acc m => voting_bump acc (m / locality_size * locality_size)) vm,
        0 < p.2 := by
  intro ms
  induction ms with
  | nil => intro vm h; exact h
  | cons m ms ih =>
    intro vm h
    exact ih _ (voting_bump_pos _ vm h)

theorem voting_foldl_nodup (locality_size : Nat) :
    ∀ (ms : List Nat) (vm : List (Nat × Nat)),
      (vm.map (fun p => p.1)).Nodup →
      ((ms.foldl
          (fun acc m => voting_bump acc (m / locality_size * locality_size))
          vm).map (fun p => p.1)).Nodup := by
  intro ms
  induction ms with
  | nil => intro vm h; exact h
  | cons m ms ih =>
    intro vm h
    exact ih _ (voting_bump_nodup _ vm h)

theorem voting_lookup_getD (ms : List Nat) (locality_size b : Nat) :
    ((voting ms locality_size).lookup b).getD 0 =
      ms.countP (fun m => decide (m / locality_size * locality_size = b)) := by
  rw [voting, voting_foldl_lookup]
  simp [List.lookup]

theorem voting_pos (ms : List Nat) (locality_size : Nat) :
    ∀ p ∈ voting ms locality_size, 0 < p.2 :=
  voting_foldl_pos locality_size ms [] (by simp)

theorem voting_nodup (ms : List Nat) (locality_size : Nat) :
    ((voting ms locality_size).map (fun p => p.1)).Nodup :=
  voting_foldl_nodup locality_size ms [] (by simp)

/-- In a tally with positive counts, a successful lookup is exactly a
positive defaulted lookup. -/
theorem lookup_some_iff_pos :
    ∀ vm : List (Nat × Nat), (∀ p ∈ vm, 0 < p.2) → ∀ b n : Nat,
      (vm.lookup b = some n ↔ ((vm.lookup b).getD 0 = n ∧ 0 < n)) := by
  intro vm
  induction vm with
  | nil =>
    intro _ b n
    simp [List.lookup]
    omega
  | cons q rest ih =>
    obtain ⟨k, v⟩ := q
    intro hpos b n
    by_cases hb : b = k
    · subst hb
      rw [lookup_cons_self]
      have hv : 0 < v := hpos (b, v) (List.mem_cons_self _ _)
      simp only [Option.some.injEq, Option.getD_some]
      constructor
      · rintro rfl; exact ⟨rfl, hv⟩
      · rintro ⟨rfl, _⟩; rfl
    · rw [lookup_cons_ne b k v rest hb]
      exact ih (fun r hr => hpos r (List.mem_cons_of_mem _ hr)) b n

/-- With duplicate-free keys, tally membership is lookup. -/
theorem mem_iff_lookup_nodup :
    ∀ vm : List (Nat × Nat), (vm.map (fun p => p.1)).Nodup → ∀ b n : Nat,
      ((b, n) ∈ vm ↔ vm.lookup b = some n) := by
  intro vm
  induction vm with
  | nil => intro _ b n; simp [List.lookup]
  | cons q rest ih =>
    obtain ⟨k, v⟩ := q
    intro hnd b n
    have hnd2 : (k :: rest.map (fun p => p.1)).Nodup := by
      simpa only [List.map_cons] using hnd
    obtain ⟨hknotin, hndrest⟩ := List.nodup_cons.mp hnd2
    by_cases hb : b = k
    · subst hb
      rw [lookup_cons_self]
      constructor
      · intro hmem
        rcases List.mem_cons.mp hmem with heq | hmem
        · injection heq with h1 h2
          rw [h2]
        · exact absurd (List.mem_map_of_mem (fun p => p.1) hmem) hknotin
      · intro hl
        rw [Option.some_inj.mp hl.symm]
        exact List.mem_cons_self _ _
    · rw [lookup_cons_ne b k v rest hb]
      constructor
      · intro hmem
        rcases List.mem_cons.mp hmem with heq | hmem
        · exact absurd (congrArg Prod.fst heq) hb
        · exact (ih hndrest b n).mp hmem
      · intro hl
        exact List.mem_cons_of_mem _ ((ih hndrest b n).mpr hl)

/-- Membership in `filtering`: some tally entry for that bucket meets the
threshold. -/
theorem mem_filtering_iff (vm : List (Nat × Nat)) (vt : Int) (c : Nat) :
    c ∈ filtering vm vt ↔ ∃ n, (c, n) ∈ vm ∧ vt ≤ (n : Int) := by
  unfold filtering
  rw [List.mem_map]
  constructor
  · rintro ⟨⟨a, b⟩, hmem, rfl⟩
    obtain ⟨hvm, hle⟩ := List.mem_filter.mp hmem
    exact ⟨b, hvm, of_decide_eq_true hle⟩
  · rintro ⟨n, hmem, hle⟩
    exact ⟨(c, n), List.mem_filter.mpr ⟨hmem, decide_eq_true hle⟩, rfl⟩

/-- Central characterization: a bucket start survives `filtering ∘ voting` iff
the number of matches in its bucket is positive and meets the threshold. -/
theorem mem_candidates_iff (ms : List Nat) (ls : Nat) (vt : Int) (c : Nat) :
    c ∈ filtering (voting ms ls) vt ↔
      (0 < ms.countP (fun m => decide (m / ls * ls = c)) ∧
        vt ≤ (ms.countP (fun m => decide (m / ls * ls = c)) : Int)) := by
  rw [mem_filtering_iff]
  constructor
  · rintro ⟨n, hmem, hle⟩
    have hl : (voting ms ls).lookup c = some n :=
      (mem_iff_lookup_nodup (voting ms ls) (voting_nodup ms ls) c n).mp hmem
    obtain ⟨hgd, hpos⟩ :=
      (lookup_some_iff_pos (voting ms ls) (voting_pos ms ls) c n).mp hl
    rw [voting_lookup_getD] at hgd
    rw [hgd]
    exact ⟨by omega, hle⟩
  · rintro ⟨hpos, hle⟩
    refine ⟨ms.countP (fun m => decide (m / ls * ls = c)), ?_, hle⟩
    apply (mem_iff_lookup_nodup (voting ms ls) (voting_nodup ms ls) c _).mpr
    apply (lookup_some_iff_pos (voting ms ls) (voting_pos ms ls) c _).mpr
    exact ⟨voting_lookup_getD ms ls c, hpos⟩

/-- The candidate list has no duplicate offsets. -/
theorem filtering_voting_nodup (ms : List Nat) (ls : Nat) (vt : Int) :
    (filtering (voting ms ls) vt).Nodup := by
  unfold filtering
  exact List.Nodup.sublist
    (List.Sublist.map (fun p => p.1) (List.filter_sublist (voting ms ls)))
    (voting_nodup ms ls)

/-! ## C8: the vote tally -/

/-- C8: with a positive `locality_size`, (a) the vote counts sum to the number
of match offsets, and (b) a bucket maps to count `n` iff `n` is the number of
offsets whose bucket `floor(offset / locality_size) * locality_size` equals it
and `n` is positive — so zero-vote buckets are absent, not stored as zero. -/
theorem c8_voting (match_list : List Nat) (locality_size : Nat)
    (_hls : 0 < locality_size) :
    ((voting match_list locality_size).map (fun p => p.2)).sum =
        match_list.length ∧
    ∀ b n : Nat,
      (voting match_list locality_size).lookup b = some n ↔
        (n = match_list.countP
            (fun m => decide (m / locality_size * locality_size = b)) ∧
          0 < n) := by
  constructor
  · rw [voting, voting_foldl_sum]
    simp
  · intro b n
    rw [lookup_some_iff_pos (voting match_list locality_size)
      (voting_pos match_list locality_size) b n, voting_lookup_getD]
    constructor
    · rintro ⟨h, hp⟩
      exact ⟨h.symm, hp⟩
    · rintro ⟨h, hp⟩
      exact ⟨h.symm, hp⟩

/-- C8, witness: instantiates `c8_voting` at `match_list = [0, 1, 5]`,
`locality_size = 4` (buckets `0 ↦ 2`, `4 ↦ 1`). -/
theorem c8_voting_witness :
    0 < 4 ∧
    ((voting [0, 1, 5] 4).map (fun p => p.2)).sum =
      ([0, 1, 5] : List Nat).length ∧
    ((voting [0, 1, 5] 4).lookup 0 = some 2 ↔
      (2 = ([0, 1, 5] : List Nat).countP (fun m => decide (m / 4 * 4 = 0)) ∧
        0 < 2)) :=
  ⟨by decide, (c8_voting [0, 1, 5] 4 (by decide)).1,
    (c8_voting [0, 1, 5] 4 (by decide)).2 0 2⟩

/-! ## C1: what the pipeline actually returns -/

/-- C1, counterexample: two reads whose mandated Smith-Waterman scores against
the surviving candidate's window differ (`8` for `AAAA` vs `6` for `AAAT`
against window `reference[0:4] = AAAA`) produce *identical* pipeline outputs
`[0]` — so the pipeline's results are bare offsets and cannot carry the
read-vs-window alignment scores the claim says they do. -/
theorem c1_counterexample :
    fsva_with_encoding "AAAA".toList "AAAA".toList 2 0 4 1 = [0] ∧
    fsva_with_encoding "AAAT".toList "AAAA".toList 2 0 4 1 = [0] ∧
    smith_waterman "AAAA".toList "AAAA".toList = 8 ∧
    smith_waterman "AAAT".toList "AAAA".toList = 6 := by
  refine ⟨by decide, by decide, by decide, by decide⟩

/-- C1, amended: `fsva_with_encoding` returns exactly one bare offset per
surviving candidate and attaches no alignment scores: the output is
duplicate-free, and an offset is present iff its bucket received a positive
number of votes meeting the threshold.  (`smith_waterman` exists in the module
but the pipeline never invokes it.) -/
theorem c1_pipeline_membership (read reference : List Char)
    (seed_length max_hamming_distance locality_size : Nat)
    (vote_threshold : Int) (_hls : 0 < locality_size) :
    (fsva_with_encoding read reference seed_length max_hamming_distance
        locality_size vote_threshold).Nodup ∧
    ∀ c : Nat,
      c ∈ fsva_with_encoding read reference seed_length max_hamming_distance
          locality_size vote_threshold ↔
        (0 < (fsva_all_matches read reference seed_length
              max_hamming_distance).countP
            (fun m => decide (m / locality_size * locality_size = c)) ∧
          vote_threshold ≤
            ((fsva_all_matches read reference seed_length
                max_hamming_distance).countP
              (fun m => decide (m / locality_size * locality_size = c)) : Int)) := by
  constructor
  · exact filtering_voting_nodup _ _ _
  · intro c
    exact mem_candidates_iff _ _ _ _

/-- C1, witness: instantiates `c1_pipeline_membership` at a concrete run
(`read = "ACGT"`, `reference = "ACGT"`, seeds of length 2, zero budget,
`locality_size = 2`, threshold 1). -/
theorem c1_pipeline_membership_witness :
    0 < 2 ∧
    (fsva_with_encoding "ACGT".toList "ACGT".toList 2 0 2 1).Nodup ∧
    (0 ∈ fsva_with_encoding "ACGT".toList "ACGT".toList 2 0 2 1 ↔
      (0 < (fsva_all_matches "ACGT".toList "ACGT".toList 2 0).countP
          (fun m => decide (m / 2 * 2 = 0)) ∧
        (1 : Int) ≤
          ((fsva_all_matches "ACGT".toList "ACGT".toList 2 0).countP
            (fun m => decide (m / 2 * 2 = 0)) : Int))) :=
  ⟨by decide,
    (c1_pipeline_membership "ACGT".toList "ACGT".toList 2 0 2 1 (by decide)).1,
    (c1_pipeline_membership "ACGT".toList "ACGT".toList 2 0 2 1 (by decide)).2 0⟩

/-! ## C10: candidates are in-range bucket starts -/

/-- Membership in an extend-style fold. -/
theorem mem_foldl_append {α β : Type} (g : β → List α) :
    ∀ (l : List β) (acc : List α) (x : α),
      (x ∈ l.foldl (fun a s => a ++ g s) acc ↔
        x ∈ acc ∨ ∃ s ∈ l, x ∈ g s) := by
  intro l
  induction l with
  | nil =>
    intro acc x
    simp
  | cons s l ih =>
    intro acc x
    rw [List.foldl_cons, ih]
    simp [List.mem_append]
    tauto

/-- Every generated encoded seed has exactly `seed_length` symbols. -/
theorem generate_encoded_seeds_length (read : List Char) (seed_length : Nat) :
    ∀ s ∈ generate_encoded_seeds read seed_length, s.length = seed_length := by
  intro s hs
  unfold generate_encoded_seeds pyRange at hs
  rw [List.mem_map] at hs
  obtain ⟨i, hi, rfl⟩ := hs
  rw [List.mem_range] at hi
  rw [encode_sequence_length, List.length_take, List.length_drop]
  omega

/-- C10: with a positive `locality_size`, every candidate offset the pipeline
returns is a multiple of `locality_size` (hence a non-negative bucket start)
and is at most the largest valid seed-window start
`|reference| − seed_length`. -/
theorem c10_candidate_bounds (read reference : List Char)
    (seed_length max_hamming_distance locality_size : Nat)
    (vote_threshold : Int) (_hls : 0 < locality_size) :
    ∀ c ∈ fsva_with_encoding read reference seed_length max_hamming_distance
        locality_size vote_threshold,
      locality_size ∣ c ∧
        (c : Int) ≤ (reference.length : Int) - seed_length := by
  intro c hc
  unfold fsva_with_encoding at hc
  obtain ⟨hpos, _⟩ := (mem_candidates_iff _ _ _ _).mp hc
  obtain ⟨m, hm, hbucket⟩ := List.countP_pos_iff.mp hpos
  have hbc : m / locality_size * locality_size = c := of_decide_eq_true hbucket
  have hmall : m ∈ fsva_all_matches read reference seed_length
      max_hamming_distance := hm
  unfold fsva_all_matches at hmall
  rcases (mem_foldl_append _ _ _ _).mp hmall with habs | ⟨seed, hseed, hmt⟩
  · cases habs
  constructor
  · have hdvd : locality_size ∣ m / locality_size * locality_size :=
      ⟨m / locality_size, Nat.mul_comm _ _⟩
    exact hbc ▸ hdvd
  · have hlen : seed.length = seed_length :=
      generate_encoded_seeds_length read seed_length seed hseed
    have hle :=
      ((tcam_mem_iff seed (encode_sequence reference) max_hamming_distance m).mp
        hmt).1
    rw [hlen, encode_sequence_length] at hle
    have hcm : c ≤ m := hbc ▸ Nat.div_mul_le_self m locality_size
    have : (c : Int) ≤ (m : Int) := by exact_mod_cast hcm
    linarith

/-- C10, witness: instantiates `c10_candidate_bounds` on a run returning
candidates `[0, 2]` (checked at candidate `2`). -/
theorem c10_candidate_bounds_witness :
    0 < 2 ∧ 2 ∈ fsva_with_encoding "ACGT".toList "ACGT".toList 2 0 2 1 ∧
    (2 ∣ 2 ∧ (2 : Int) ≤ (("ACGT".toList : List Char).length : Int) - 2) :=
  ⟨by decide, by decide,
    c10_candidate_bounds "ACGT".toList "ACGT".toList 2 0 2 1 (by decide) 2
      (by decide)⟩

/-! ## C7: seed generation and the degenerate case -/

/-- C7: for `seed_length > 0`, exactly `max(0, |read| − seed_length + 1)`
seeds are produced, the `i`-th being the encoding of `read[i : i+seed_length]`;
when `seed_length > |read|` the seed list is empty and the whole pipeline
returns the empty candidate list (an ordinary value, not a failure). -/
theorem c7_seeds (read : List Char) (seed_length : Nat) (_hL : 0 < seed_length) :
    ((generate_encoded_seeds read seed_length).length : Int) =
        max 0 ((read.length : Int) - seed_length + 1) ∧
    (∀ i : Nat, i < (generate_encoded_seeds read seed_length).length →
      (generate_encoded_seeds read seed_length).get? i =
        some (encode_sequence ((read.drop i).take seed_length))) ∧
    (read.length < seed_length →
      generate_encoded_seeds read seed_length = [] ∧
      ∀ (reference : List Char) (max_hamming_distance locality_size : Nat)
        (vote_threshold : Int),
        fsva_with_encoding read reference seed_length max_hamming_distance
          locality_size vote_threshold = []) := by
  refine ⟨?_, ?_, ?_⟩
  · unfold generate_encoded_seeds pyRange
    rw [List.length_map, List.length_range]
    omega
  · intro i hi
    unfold generate_encoded_seeds pyRange at hi ⊢
    rw [List.length_map, List.length_range] at hi
    rw [List.get?_map, List.get?_range hi]
    rfl
  · intro hdeg
    have hgen : generate_encoded_seeds read seed_length = [] := by
      unfold generate_encoded_seeds pyRange
      rw [List.map_eq_nil, List.range_eq_nil]
      omega
    refine ⟨hgen, ?_⟩
    intro reference max_hamming_distance locality_size vote_threshold
    unfold fsva_with_encoding fsva_all_matches
    rw [hgen]
    rfl

/-- C7, witness: instantiates `c7_seeds` at a degenerate run
(`read = "A"`, `seed_length = 2 > |read|`). -/
theorem c7_seeds_witness :
    0 < 2 ∧
    ((generate_encoded_seeds ['A'] 2).length : Int) =
      max 0 (((['A'] : List Char).length : Int) - 2 + 1) ∧
    (([ 'A'] : List Char).length < 2 → generate_encoded_seeds ['A'] 2 = []) ∧
    fsva_with_encoding ['A'] ['A', 'C'] 2 1 1 1 = [] :=
  ⟨by decide, (c7_seeds ['A'] 2 (by decide)).1,
    fun h => ((c7_seeds ['A'] 2 (by decide)).2.2 h).1,
    ((c7_seeds ['A'] 2 (by decide)).2.2 (by decide)).2 ['A', 'C'] 1 1 1⟩
